import Mathlib

/-!
Verification of the Offer Normalization & Aggregation Engine of `src/index.ts`
(flight-search aggregation script).

The embedding follows the source:

* `parseDuration` (src/index.ts lines 15-21) matches the regexes `(\d+)\s*h`
  and `(\d+)\s*m` against the duration text, takes the captured digit run of
  each (or 0 when there is no match) and returns `hours * 60 + minutes`.
  A JavaScript regex match scans candidate start positions left to right and
  returns the first (leftmost) successful match.  At a given position the
  pattern `(\d+)\s*X` (for a marker character `X` that is neither a digit nor
  whitespace) succeeds exactly when the position holds a digit and the maximal
  digit run starting there, followed by a maximal run of whitespace, is
  followed by `X`: backtracking `\d+` to a shorter run cannot help, because the
  next character is then a digit, which is neither `\s` nor `X`; likewise
  backtracking `\s*` only exposes a whitespace character, which is not `X`.
  The captured group is the maximal digit run, and `parseInt(g, 10)` is its
  decimal value.  `leftComp` below implements exactly this leftmost-match
  semantics, one candidate start position at a time.

* `parseFlight` (lines 23-30) spreads the raw record and adds
  `numericPrice = parseFloat(price.replace(/[^0-9.]/g, ""))` (modelled as an
  `Option ℚ`, where `none` stands for JavaScript's `NaN`),
  `totalMinutes = parseDuration(totalDuration)` and
  `layoverMinutes = (layovers || []).map(parseDuration)`.

* `isValidFlight` (lines 32-39) checks `stops <= 2`,
  `totalMinutes <= 30 * 60` and `layoverMinutes.every(l => l <= 5 * 60)`.
  The spec describes the same predicate over an explicit constraint set
  `(maxStops, maxTotalMinutes, maxLayoverMinutes)`; the source hard-codes the
  values `(2, 30 * 60, 5 * 60)`, recorded here as `defaultConstraints`.
  Note that `isValidFlight` never reads `numericPrice`.

* the aggregation loop (lines 70-105) runs one query unit per departure date:
  it extracts a list of raw flights, parses each, keeps the valid ones and
  pushes them (tagged with the unit's date) onto the running accumulator.
  `aggregate` embeds the loop with the external extraction abstracted as
  input: each query unit is a pair of its date tag and the raw flights the
  extractor returned for it.

* the ranking step (line 107) is
  `allFlights.sort((a, b) => a.numericPrice - b.numericPrice)`.  ECMAScript
  `Array.prototype.sort` is a stable sort, and with this comparator (on lists
  whose prices are all actual numbers) it is the stable ascending sort by
  `numericPrice`; `rank` embeds it as an insertion sort, which computes the
  same (unique) stable result.  When a price is `NaN` the comparator returns
  `NaN` and the resulting order is implementation-defined in ECMAScript, so
  the theorems about `rank` assume every price is an actual number; `priceQ`
  extends the sort key to `none` arbitrarily (by 0) to keep `rank` total.
-/

namespace FlightSearch

/-- Whitespace test of the source regexes' `\s` class (the ASCII part; the
duration texts at issue only use the plain space). -/
def isWs (c : Char) : Bool :=
  c = ' ' || c = '\t' || c = '\n' || c = '\r' || c = '\x0b' || c = '\x0c'

/-- Decimal value of a run of digit characters, as computed by
`parseInt(run, 10)`. -/
def digitsVal (ds : List Char) : ℕ :=
  ds.foldl (fun a c => a * 10 + (c.toNat - 48)) 0

/-- The input left after dropping the remainder of the current maximal digit
run and then the subsequent maximal whitespace run. -/
def afterRun (cs : List Char) : List Char :=
  (cs.dropWhile Char.isDigit).dropWhile isWs

/-- Whether the regex `(\d+)\s*X` (with `X` the marker) matches starting
exactly at the head of `l`: the head is a digit and the maximal digit run,
followed by any whitespace, is followed by the marker. -/
def matchesFrom (marker : Char) (l : List Char) : Bool :=
  match l with
  | [] => false
  | c :: cs => c.isDigit && ((afterRun cs).head? == some marker)

/-- Leftmost-match semantics of `text.match(/(\d+)\s*X/)`: try the match at
each start position from the left and return the decimal value of the first
successful match's captured digit run, or `none` when no position matches. -/
def leftComp (marker : Char) : List Char → Option ℕ
  | [] => none
  | c :: cs =>
    if matchesFrom marker (c :: cs) then
      some (digitsVal ((c :: cs).takeWhile Char.isDigit))
    else leftComp marker cs

/-- Embedding of `parseDuration` (src/index.ts lines 15-21): hour and minute
components via the regexes `(\d+)\s*h` and `(\d+)\s*m`, an absent match
contributing 0, combined as `hours * 60 + minutes`. -/
def parseDuration (duration : String) : ℕ :=
  let hours := (leftComp 'h' duration.data).getD 0
  let minutes := (leftComp 'm' duration.data).getD 0
  hours * 60 + minutes

/-- Embedding of `price.replace(/[^0-9.]/g, "")`: keep only digits and the
decimal point. -/
def cleanPrice (s : String) : List Char :=
  s.data.filter (fun c => c.isDigit || c == '.')

/-- The numeric value `parseFloat` produces from an integer digit run `ip`
and a fractional digit run `fp`. -/
def floatVal (ip fp : List Char) : ℚ :=
  (digitsVal ip : ℚ) + (digitsVal fp : ℚ) / 10 ^ fp.length

/-- Embedding of `parseFloat` on a cleaned price text, i.e. on a character
list containing only digits and decimal points (`cleanPrice` guarantees
this).  `parseFloat` parses the longest valid decimal-literal prefix and is
`NaN` (here `none`) when there is none: on such inputs a valid prefix is
either digits, or digits `.` digits, or `.` digits, and stops at any second
decimal point. -/
def parseFloatCleaned (cs : List Char) : Option ℚ :=
  match cs with
  | [] => none
  | c :: rest =>
    if c = '.' then
      let ds := rest.takeWhile Char.isDigit
      if ds = [] then none else some (floatVal [] ds)
    else if c.isDigit then
      let ip := (c :: rest).takeWhile Char.isDigit
      let rest2 := (c :: rest).dropWhile Char.isDigit
      if rest2.head? = some '.' then some (floatVal ip (rest2.tail.takeWhile Char.isDigit))
      else some (floatVal ip [])
    else none

/-- The raw record shape the extractor returns (src/index.ts lines 7-13).
`stops` is an integer per the spec's data model; `layovers` is optional. -/
structure RawFlight where
  airlines : String
  price : String
  totalDuration : String
  stops : ℤ
  layovers : Option (List String)
  deriving DecidableEq

/-- The normalized offer produced by `parseFlight`: the raw fields carried
through unchanged plus the three derived numeric fields.  `numericPrice` is
`none` exactly when `parseFloat` yields `NaN`. -/
structure ParsedFlight where
  airlines : String
  price : String
  totalDuration : String
  stops : ℤ
  layovers : Option (List String)
  numericPrice : Option ℚ
  totalMinutes : ℕ
  layoverMinutes : List ℕ
  deriving DecidableEq

/-- Embedding of `parseFlight` (src/index.ts lines 23-30). -/
def parseFlight (flight : RawFlight) : ParsedFlight :=
  { airlines := flight.airlines
    price := flight.price
    totalDuration := flight.totalDuration
    stops := flight.stops
    layovers := flight.layovers
    numericPrice := parseFloatCleaned (cleanPrice flight.price)
    totalMinutes := parseDuration flight.totalDuration
    layoverMinutes := (flight.layovers.getD []).map (fun l => parseDuration l) }

/-- The admission constraint set of the spec: max stops, max total minutes,
max per-layover minutes, all inclusive. -/
structure Constraints where
  maxStops : ℤ
  maxTotalMinutes : ℕ
  maxLayoverMinutes : ℕ
  deriving DecidableEq

/-- Embedding of `isValidFlight` (src/index.ts lines 32-39), with the
hard-coded bounds `(2, 30 * 60, 5 * 60)` generalized to a constraint set;
`defaultConstraints` is the source's concrete values.  The price is not
examined. -/
def isValidFlight (c : Constraints) (flight : ParsedFlight) : Bool :=
  decide (flight.stops ≤ c.maxStops) &&
    decide (flight.totalMinutes ≤ c.maxTotalMinutes) &&
    flight.layoverMinutes.all (fun l => decide (l ≤ c.maxLayoverMinutes))

/-- The constraint values hard-coded in src/index.ts lines 33-36. -/
def defaultConstraints : Constraints :=
  ⟨2, 30 * 60, 5 * 60⟩

/-- An admitted offer tagged with the departure date of the query unit it was
collected under (`{...parsed, departureDate: iso}`, src/index.ts line 102). -/
structure TaggedFlight where
  flight : ParsedFlight
  departureDate : String
  deriving DecidableEq

/-- One iteration of the inner `flights.forEach` (src/index.ts lines 99-104):
parse the raw flight and push it, tagged, when it is valid. -/
def pushFlight (c : Constraints) (tag : String) (acc : List TaggedFlight) (f : RawFlight) :
    List TaggedFlight :=
  let parsed := parseFlight f
  if isValidFlight c parsed then acc ++ [⟨parsed, tag⟩] else acc

/-- Embedding of the aggregation loop (src/index.ts lines 70-105).  A query
unit is the pair of its date tag and the raw flights the extractor returned
for it; the loop folds over the units in order, appending each unit's
admitted flights to the accumulator in arrival order. -/
def aggregate (c : Constraints) (units : List (String × List RawFlight)) : List TaggedFlight :=
  units.foldl (fun acc u => u.2.foldl (pushFlight c u.1) acc) []

/-- Sort key of the comparator `(a, b) => a.numericPrice - b.numericPrice`
(src/index.ts line 107), extended to a missing (`NaN`) price by 0 only to
keep the embedding total; the `rank` theorems assume every price is present. -/
def priceQ (o : TaggedFlight) : ℚ :=
  o.flight.numericPrice.getD 0

/-- The sort order used by `rank`. -/
def priceLE (a b : TaggedFlight) : Prop :=
  priceQ a ≤ priceQ b

instance : DecidableRel priceLE :=
  fun a b => inferInstanceAs (Decidable (priceQ a ≤ priceQ b))

instance : IsTotal TaggedFlight priceLE :=
  ⟨fun a b => le_total (priceQ a) (priceQ b)⟩

instance : IsTrans TaggedFlight priceLE :=
  ⟨fun _ _ _ hab hbc => le_trans hab hbc⟩

/-- Embedding of `allFlights.sort((a, b) => a.numericPrice - b.numericPrice)`
(src/index.ts line 107): the stable ascending sort by numeric price, realized
as an insertion sort (any stable sort computes the same list). -/
def rank (l : List TaggedFlight) : List TaggedFlight :=
  l.insertionSort priceLE

/-- A component occurrence with value `v`: somewhere in the text a nonempty
digit run, followed by optional whitespace and then the marker, whose decimal
value is `v`.  This is the declarative reading of one match of
`(\d+)\s*marker`. -/
def HasCompVal (marker : Char) (cs : List Char) (v : ℕ) : Prop :=
  ∃ pre ds ws suf, cs = pre ++ (ds ++ (ws ++ marker :: suf)) ∧ ds ≠ [] ∧
    (∀ c ∈ ds, c.isDigit = true) ∧ (∀ c ∈ ws, isWs c = true) ∧ digitsVal ds = v

/-- The text contains at least one occurrence of the component. -/
def HasComp (marker : Char) (cs : List Char) : Prop :=
  ∃ v, HasCompVal marker cs v

/-- A whitespace character is not a digit. -/
theorem not_digit_of_isWs {c : Char} (h : isWs c = true) : c.isDigit = false := by
  simp only [isWs, Bool.or_eq_true, decide_eq_true_eq] at h
  rcases h with ((((h | h) | h) | h) | h) | h <;> subst h <;> decide

/-- Dropping a prefix every element of which satisfies the predicate
continues into the rest of the list. -/
theorem dropWhile_append_of_forall {p : Char → Bool} :
    ∀ (l r : List Char), (∀ c ∈ l, p c = true) → (l ++ r).dropWhile p = r.dropWhile p := by
  intro l
  induction l with
  | nil => intro r _; rfl
  | cons c l ih =>
    intro r h
    rw [List.cons_append, List.dropWhile_cons_of_pos (h c (.head _))]
    exact ih r (fun d hd => h d (.tail _ hd))

/-- If some start position matches, the leftmost-match scan succeeds. -/
theorem leftComp_isSome_of_matchesFrom {marker : Char} :
    ∀ (cs : List Char) (i : ℕ), matchesFrom marker (cs.drop i) = true →
      (leftComp marker cs).isSome = true := by
  intro cs
  induction cs with
  | nil => intro i h; simp [matchesFrom] at h
  | cons c cs ih =>
    intro i h
    by_cases h0 : matchesFrom marker (c :: cs) = true
    · simp [leftComp, h0]
    · cases i with
      | zero => rw [List.drop_zero] at h; exact absurd h h0
      | succ i =>
        rw [List.drop_succ_cons] at h
        simpa [leftComp, h0] using ih i h

/-- The scan returns the value of the captured digit run at the leftmost
matching start position. -/
theorem leftComp_eq_of_leftmost {marker : Char} :
    ∀ (cs : List Char) (i : ℕ), matchesFrom marker (cs.drop i) = true →
      (∀ k, k < i → matchesFrom marker (cs.drop k) = false) →
      leftComp marker cs = some (digitsVal ((cs.drop i).takeWhile Char.isDigit)) := by
  intro cs
  induction cs with
  | nil => intro i h _; simp [matchesFrom] at h
  | cons c cs ih =>
    intro i h hmin
    cases i with
    | zero =>
      rw [List.drop_zero] at h ⊢
      simp [leftComp, h]
    | succ i =>
      have h0 : matchesFrom marker (c :: cs) = false := by
        simpa using hmin 0 (Nat.succ_pos i)
      rw [List.drop_succ_cons] at h ⊢
      simp only [leftComp, h0, Bool.false_eq_true, if_false]
      exact ih i h (fun k hk => by
        simpa [List.drop_succ_cons] using hmin (k + 1) (Nat.succ_lt_succ hk))

/-- If no start position matches, the scan fails. -/
theorem leftComp_eq_none {marker : Char} :
    ∀ cs : List Char, (∀ i, i < cs.length → matchesFrom marker (cs.drop i) = false) →
      leftComp marker cs = none := by
  intro cs
  induction cs with
  | nil => intro _; rfl
  | cons c cs ih =>
    intro h
    have h0 : matchesFrom marker (c :: cs) = false := by
      simpa using h 0 (by simp)
    simp only [leftComp, h0, Bool.false_eq_true, if_false]
    exact ih (fun i hi => by
      simpa [List.drop_succ_cons] using h (i + 1) (by simpa using Nat.succ_lt_succ hi))

/-- A successful scan exhibits an actual component occurrence of that value
in the text. -/
theorem hasCompVal_of_leftComp {marker : Char} :
    ∀ {cs : List Char} {v : ℕ}, leftComp marker cs = some v → HasCompVal marker cs v := by
  intro cs
  induction cs with
  | nil => intro v h; simp [leftComp] at h
  | cons c cs ih =>
    intro v h
    by_cases h0 : matchesFrom marker (c :: cs) = true
    · rw [leftComp, if_pos h0] at h
      have hval : digitsVal ((c :: cs).takeWhile Char.isDigit) = v := by
        injection h
      have hdig : c.isDigit = true := by
        have h1 := h0
        simp only [matchesFrom, Bool.and_eq_true] at h1
        exact h1.1
      have hmk : (afterRun cs).head? = some marker := by
        have h1 := h0
        simp only [matchesFrom, Bool.and_eq_true, beq_iff_eq] at h1
        exact h1.2
      rw [afterRun] at hmk
      obtain ⟨suf, hsuf⟩ : ∃ suf, (cs.dropWhile Char.isDigit).dropWhile isWs = marker :: suf := by
        cases hfr : (cs.dropWhile Char.isDigit).dropWhile isWs with
        | nil => rw [hfr] at hmk; simp at hmk
        | cons a t =>
          rw [hfr] at hmk
          simp only [List.head?_cons, Option.some.injEq] at hmk
          exact ⟨t, by rw [hmk]⟩
      have e3 : cs.dropWhile Char.isDigit =
          (cs.dropWhile Char.isDigit).takeWhile isWs ++ marker :: suf := by
        conv_lhs =>
          rw [← List.takeWhile_append_dropWhile (p := isWs) (l := cs.dropWhile Char.isDigit)]
        rw [hsuf]
      have e1 : c :: cs = (c :: cs).takeWhile Char.isDigit ++ (c :: cs).dropWhile Char.isDigit :=
        (List.takeWhile_append_dropWhile _ _).symm
      rw [List.dropWhile_cons_of_pos hdig, e3] at e1
      refine ⟨[], (c :: cs).takeWhile Char.isDigit,
        (cs.dropWhile Char.isDigit).takeWhile isWs, suf, ?_, ?_, ?_, ?_, hval⟩
      · rw [List.nil_append]
        exact e1
      · rw [List.takeWhile_cons_of_pos hdig]; simp
      · exact fun d hd => List.mem_takeWhile_imp hd
      · exact fun d hd => List.mem_takeWhile_imp hd
    · rw [leftComp, if_neg h0] at h
      obtain ⟨pre, ds, ws, suf, hcs, hne, hds, hws, hval⟩ := ih h
      refine ⟨c :: pre, ds, ws, suf, ?_, hne, hds, hws, hval⟩
      rw [List.cons_append, ← hcs]

/-- A component occurrence makes the regex match at its start position. -/
theorem matchesFrom_of_decomposition {marker : Char} (hd : marker.isDigit = false)
    (hwm : isWs marker = false) (ds ws suf : List Char) (hne : ds ≠ [])
    (hds : ∀ c ∈ ds, c.isDigit = true) (hws : ∀ c ∈ ws, isWs c = true) :
    matchesFrom marker (ds ++ (ws ++ marker :: suf)) = true := by
  obtain ⟨d, ds', rfl⟩ : ∃ d ds', ds = d :: ds' := by
    cases ds with
    | nil => exact absurd rfl hne
    | cons d ds' => exact ⟨d, ds', rfl⟩
  have key : ((ws ++ marker :: suf).dropWhile Char.isDigit).dropWhile isWs = marker :: suf := by
    cases ws with
    | nil =>
      rw [List.nil_append, List.dropWhile_cons_of_neg (by simp [hd]),
        List.dropWhile_cons_of_neg (by simp [hwm])]
    | cons w ws' =>
      rw [List.cons_append,
        List.dropWhile_cons_of_neg (by simp [not_digit_of_isWs (hws w (.head _))]),
        ← List.cons_append, dropWhile_append_of_forall (w :: ws') _ hws,
        List.dropWhile_cons_of_neg (by simp [hwm])]
  rw [List.cons_append]
  simp only [matchesFrom, Bool.and_eq_true, beq_iff_eq]
  refine ⟨hds d (.head _), ?_⟩
  simp only [afterRun]
  rw [dropWhile_append_of_forall ds' _ (fun e he => hds e (.tail _ he)), key,
    List.head?_cons]

/-- A component occurrence anywhere in the text makes the scan succeed
(for a marker that is neither a digit nor whitespace, such as `h` and `m`). -/
theorem leftComp_isSome_of_hasComp {marker : Char} {cs : List Char}
    (hd : marker.isDigit = false) (hwm : isWs marker = false) (h : HasComp marker cs) :
    (leftComp marker cs).isSome = true := by
  obtain ⟨v, pre, ds, ws, suf, hcs, hne, hds, hws, _⟩ := h
  subst hcs
  apply leftComp_isSome_of_matchesFrom _ pre.length
  rw [List.drop_left]
  exact matchesFrom_of_decomposition hd hwm ds ws suf hne hds hws

/-- Claim C2: a duration text with both an hour and a minute component parses
to `60 * h + m` (with `h` and `m` the values the leftmost-match scans find,
each witnessed by an actual occurrence in the text); with only one component
the other contributes 0; with neither component the result is 0.
`parseDuration` is a total function, so it never fails. -/
theorem parseDuration_component_sum (s : String) :
    (HasComp 'h' s.data → HasComp 'm' s.data →
      ∃ h m, HasCompVal 'h' s.data h ∧ HasCompVal 'm' s.data m ∧
        parseDuration s = 60 * h + m)
  ∧ (HasComp 'h' s.data → ¬ HasComp 'm' s.data →
      ∃ h, HasCompVal 'h' s.data h ∧ parseDuration s = 60 * h)
  ∧ (¬ HasComp 'h' s.data → HasComp 'm' s.data →
      ∃ m, HasCompVal 'm' s.data m ∧ parseDuration s = m)
  ∧ (¬ HasComp 'h' s.data → ¬ HasComp 'm' s.data → parseDuration s = 0) := by
  have hNone : ∀ marker, ¬ HasComp marker s.data → leftComp marker s.data = none := by
    intro marker hn
    cases h : leftComp marker s.data with
    | none => rfl
    | some v => exact absurd ⟨v, hasCompVal_of_leftComp h⟩ hn
  have hSome : ∀ marker, marker.isDigit = false → isWs marker = false →
      HasComp marker s.data →
      ∃ v, leftComp marker s.data = some v ∧ HasCompVal marker s.data v := by
    intro marker h1 h2 hc
    obtain ⟨v, hv⟩ := Option.isSome_iff_exists.mp (leftComp_isSome_of_hasComp h1 h2 hc)
    exact ⟨v, hv, hasCompVal_of_leftComp hv⟩
  refine ⟨?_, ?_, ?_, ?_⟩
  · intro hh hm
    obtain ⟨h, hleft, hval⟩ := hSome 'h' (by decide) (by decide) hh
    obtain ⟨m, mleft, mval⟩ := hSome 'm' (by decide) (by decide) hm
    refine ⟨h, m, hval, mval, ?_⟩
    simp only [parseDuration, hleft, mleft, Option.getD_some]
    omega
  · intro hh hm
    obtain ⟨h, hleft, hval⟩ := hSome 'h' (by decide) (by decide) hh
    refine ⟨h, hval, ?_⟩
    simp only [parseDuration, hleft, hNone 'm' hm, Option.getD_some, Option.getD_none]
    omega
  · intro hh hm
    obtain ⟨m, mleft, mval⟩ := hSome 'm' (by decide) (by decide) hm
    refine ⟨m, mval, ?_⟩
    simp only [parseDuration, hNone 'h' hh, mleft, Option.getD_some, Option.getD_none]
    omega
  · intro hh hm
    simp only [parseDuration, hNone 'h' hh, hNone 'm' hm, Option.getD_none]

/-- Witness for C2 at the duration text of the spec's scenario A. -/
theorem parseDuration_component_sum_witness :
    ∃ h m, HasCompVal 'h' "7h 45m".data h ∧ HasCompVal 'm' "7h 45m".data m ∧
      parseDuration "7h 45m" = 60 * h + m :=
  (parseDuration_component_sum "7h 45m").1
    ⟨7, [], ['7'], [], [' ', '4', '5', 'm'], by decide, by decide, by decide, by decide,
      by decide⟩
    ⟨45, ['7', 'h', ' '], ['4', '5'], [], [], by decide, by decide, by decide, by decide,
      by decide⟩

/-- Claim C3, counterexample: the source regex `(\d+)\s*h` allows whitespace
between the digits and the marker, so in the text where no digit run is
immediately followed by the marker the hour component still contributes:
the claim predicts 0 for this input, the code yields 420. -/
theorem parseDuration_ws_example : parseDuration "7 h" = 420 ∧ parseDuration "7 h" ≠ 0 := by
  decide

/-- Claim C3 as amended: `parseDuration` recognizes a component only where a
digit run is followed by optional whitespace and then the marker; for a text
in which no start position carries such an occurrence that component
contributes 0.  Digits separated from the marker by whitespace only do
count: `"7 h"` parses to 420, not 0. -/
theorem parseDuration_no_marker_zero (s : String) :
    ((∀ i, i < s.data.length → matchesFrom 'h' (s.data.drop i) = false) →
      parseDuration s = (leftComp 'm' s.data).getD 0)
  ∧ ((∀ i, i < s.data.length → matchesFrom 'm' (s.data.drop i) = false) →
      parseDuration s = 60 * ((leftComp 'h' s.data).getD 0))
  ∧ HasCompVal 'h' "7 h".data 7
  ∧ parseDuration "7 h" = 420 := by
  refine ⟨?_, ?_, ?_, by decide⟩
  · intro h
    simp only [parseDuration, leftComp_eq_none s.data h, Option.getD_none]
    omega
  · intro h
    simp only [parseDuration, leftComp_eq_none s.data h, Option.getD_none]
    omega
  · exact ⟨[], ['7'], [' '], [], by decide, by decide, by decide, by decide, by decide⟩

/-- Witness for the amended C3 at the text `"7 h"`, which has no minute
component. -/
theorem parseDuration_no_marker_zero_witness :
    parseDuration "7 h" = 60 * ((leftComp 'h' "7 h".data).getD 0) :=
  (parseDuration_no_marker_zero "7 h").2.1 (by decide)

/-- Claim C10: the hour value is taken from the leftmost digit run followed
(after optional whitespace) by `h` and the minute value from the leftmost
digit run followed by `m`; repeated components beyond the first are ignored,
so `"1h 2h 30m"` parses to 90. -/
theorem parseDuration_leftmost (s : String) (i j : ℕ)
    (hi : matchesFrom 'h' (s.data.drop i) = true)
    (hi0 : ∀ k, k < i → matchesFrom 'h' (s.data.drop k) = false)
    (hj : matchesFrom 'm' (s.data.drop j) = true)
    (hj0 : ∀ k, k < j → matchesFrom 'm' (s.data.drop k) = false) :
    parseDuration s =
      60 * digitsVal ((s.data.drop i).takeWhile Char.isDigit) +
        digitsVal ((s.data.drop j).takeWhile Char.isDigit) := by
  simp only [parseDuration, leftComp_eq_of_leftmost s.data i hi hi0,
    leftComp_eq_of_leftmost s.data j hj hj0, Option.getD_some]
  omega

/-- Witness for C10: `"1h 2h 30m"` yields 90 (from the first `1h` and the
first `30m`), not 180. -/
theorem parseDuration_leftmost_witness : parseDuration "1h 2h 30m" = 90 :=
  (parseDuration_leftmost "1h 2h 30m" 0 6 (by decide) (by decide) (by decide)
    (by decide)).trans (by decide)

/-- On a list containing only decimal points, `parseFloat` finds no valid
prefix and yields `NaN`. -/
theorem parseFloatCleaned_of_dots :
    ∀ l : List Char, (∀ c ∈ l, c = '.') → parseFloatCleaned l = none := by
  intro l h
  cases l with
  | nil => rfl
  | cons c rest =>
    have hc : c = '.' := h c (.head _)
    have hds : rest.takeWhile Char.isDigit = [] := by
      cases rest with
      | nil => rfl
      | cons r t =>
        have hr : r = '.' := h r (.tail _ (.head _))
        rw [List.takeWhile_cons, hr]
        simp
    subst hc
    simp [parseFloatCleaned, hds]

/-- A price text with no digit normalizes to a `NaN` (`none`) numeric price:
the cleaning step leaves only decimal points. -/
theorem numericPrice_none_of_no_digit (raw : RawFlight)
    (hp : ∀ ch ∈ raw.price.data, ch.isDigit = false) :
    (parseFlight raw).numericPrice = none := by
  have hdots : ∀ c ∈ cleanPrice raw.price, c = '.' := by
    intro c hc
    rw [cleanPrice, List.mem_filter] at hc
    obtain ⟨hmem, hcond⟩ := hc
    simp only [Bool.or_eq_true, beq_iff_eq] at hcond
    rcases hcond with h1 | h1
    · rw [hp c hmem] at h1
      exact absurd h1 (by simp)
    · exact h1
  exact parseFloatCleaned_of_dots _ hdots

/-- Claim C1, counterexample: a raw offer whose price text has no digit does
normalize to a `NaN` price, but `isValidFlight` accepts it anyway (it never
examines the price), refuting "admit rejects that offer regardless of the
constraint set". -/
theorem nan_price_admitted_example :
    (parseFlight ⟨"Acme Air", "Free", "25h", 1, some ["1h"]⟩).numericPrice = none
  ∧ isValidFlight ⟨2, 1800, 300⟩
      (parseFlight ⟨"Acme Air", "Free", "25h", 1, some ["1h"]⟩) = true := by
  decide

/-- Claim C1 as amended: a price text with no digit normalizes to a `NaN`
(`none`) numeric price, but the admission filter never examines the price:
its verdict is unchanged under any replacement of the price field and is
decided solely by the stops, total-duration and layover checks, so such an
offer with otherwise passing fields survives into the final result set. -/
theorem nan_price_not_checked (raw : RawFlight) (c : Constraints)
    (hp : ∀ ch ∈ raw.price.data, ch.isDigit = false) :
    (parseFlight raw).numericPrice = none
  ∧ (∀ q : Option ℚ, isValidFlight c { parseFlight raw with numericPrice := q } =
      isValidFlight c (parseFlight raw))
  ∧ (isValidFlight c (parseFlight raw) = true ↔
      ((parseFlight raw).stops ≤ c.maxStops ∧
        (parseFlight raw).totalMinutes ≤ c.maxTotalMinutes ∧
        ∀ l ∈ (parseFlight raw).layoverMinutes, l ≤ c.maxLayoverMinutes)) := by
  refine ⟨numericPrice_none_of_no_digit raw hp, fun q => rfl, ?_⟩
  simp [isValidFlight, and_assoc]

/-- Witness for the amended C1. -/
theorem nan_price_not_checked_witness :
    (parseFlight ⟨"Budget", "N/A", "3h", 0, none⟩).numericPrice = none :=
  (nan_price_not_checked ⟨"Budget", "N/A", "3h", 0, none⟩ ⟨2, 1800, 300⟩ (by decide)).1

/-- Claim C4: all three admission bounds are inclusive.  Exceeding any one of
max stops, max total minutes or max layover minutes rejects the offer, and at
each boundary (the field equal to its bound, every other check passing) the
offer is accepted. -/
theorem isValidFlight_bounds (c : Constraints) (f : ParsedFlight) :
    (c.maxStops < f.stops → isValidFlight c f = false)
  ∧ (c.maxTotalMinutes < f.totalMinutes → isValidFlight c f = false)
  ∧ (∀ l ∈ f.layoverMinutes, c.maxLayoverMinutes < l → isValidFlight c f = false)
  ∧ (f.stops = c.maxStops → f.totalMinutes ≤ c.maxTotalMinutes →
      (∀ l ∈ f.layoverMinutes, l ≤ c.maxLayoverMinutes) → isValidFlight c f = true)
  ∧ (f.totalMinutes = c.maxTotalMinutes → f.stops ≤ c.maxStops →
      (∀ l ∈ f.layoverMinutes, l ≤ c.maxLayoverMinutes) → isValidFlight c f = true)
  ∧ (c.maxLayoverMinutes ∈ f.layoverMinutes → f.stops ≤ c.maxStops →
      f.totalMinutes ≤ c.maxTotalMinutes →
      (∀ l ∈ f.layoverMinutes, l ≤ c.maxLayoverMinutes) → isValidFlight c f = true) := by
  have hiff : isValidFlight c f = true ↔
      (f.stops ≤ c.maxStops ∧ f.totalMinutes ≤ c.maxTotalMinutes ∧
        ∀ l ∈ f.layoverMinutes, l ≤ c.maxLayoverMinutes) := by
    simp [isValidFlight, and_assoc]
  refine ⟨?_, ?_, ?_, ?_, ?_, ?_⟩
  · intro h
    cases hb : isValidFlight c f with
    | false => rfl
    | true => exact absurd (hiff.mp hb).1 (not_le.mpr h)
  · intro h
    cases hb : isValidFlight c f with
    | false => rfl
    | true => exact absurd (hiff.mp hb).2.1 (not_le.mpr h)
  · intro l hl h
    cases hb : isValidFlight c f with
    | false => rfl
    | true => exact absurd ((hiff.mp hb).2.2 l hl) (not_le.mpr h)
  · intro hs ht hl
    exact hiff.mpr ⟨le_of_eq hs, ht, hl⟩
  · intro ht hs hl
    exact hiff.mpr ⟨hs, le_of_eq ht, hl⟩
  · intro _hmem hs ht hl
    exact hiff.mpr ⟨hs, ht, hl⟩

/-- Witness for C4 at the exact boundary: stops, total minutes and one
layover each equal to their bound, and the offer is accepted. -/
theorem isValidFlight_bounds_witness :
    isValidFlight ⟨2, 1800, 300⟩
      ⟨"B", "$500", "30h", 2, some ["5h"], some 500, 1800, [300]⟩ = true :=
  (isValidFlight_bounds ⟨2, 1800, 300⟩
    ⟨"B", "$500", "30h", 2, some ["5h"], some 500, 1800, [300]⟩).2.2.2.1
    (by decide) (by decide) (by decide)

/-- Claim C7: an absent `layovers` field normalizes to an empty
layover-minutes sequence, and an empty layover-minutes sequence passes the
per-layover check vacuously, leaving the verdict to the stop and
total-duration checks alone (regardless of the stop count). -/
theorem parseFlight_empty_layovers (raw : RawFlight) (c : Constraints) (f : ParsedFlight) :
    (raw.layovers = none → (parseFlight raw).layoverMinutes = [])
  ∧ (f.layoverMinutes = [] →
      (f.layoverMinutes.all (fun l => decide (l ≤ c.maxLayoverMinutes)) = true
        ∧ isValidFlight c f =
            (decide (f.stops ≤ c.maxStops) && decide (f.totalMinutes ≤ c.maxTotalMinutes)))) := by
  constructor
  · intro h
    simp [parseFlight, h]
  · intro h
    refine ⟨by rw [h]; rfl, ?_⟩
    simp [isValidFlight, h]

/-- Witness for C7: a raw offer with nine stops and no layover list; its
layover sequence is empty and the layover check contributes nothing. -/
theorem parseFlight_empty_layovers_witness :
    (parseFlight ⟨"X", "$100", "50h", 9, none⟩).layoverMinutes = [] :=
  (parseFlight_empty_layovers ⟨"X", "$100", "50h", 9, none⟩ ⟨2, 1800, 300⟩
    (parseFlight ⟨"X", "$100", "50h", 9, none⟩)).1 rfl

/-- The concrete raw offer of the spec's end-to-end scenario A. -/
def scenarioA : RawFlight :=
  ⟨"AirMock", "$1,234.56", "7h 45m", 1, some ["2h 30m"]⟩

/-- Claim C8, end-to-end scenario A: the offer with price `$1,234.56`,
duration `7h 45m`, one stop and layovers `["2h 30m"]` normalizes to numeric
price 1234.56 (= 123456/100), 465 total minutes, layover minutes `[150]`,
and is admitted under constraints `(2, 1800, 300)`. -/
theorem scenarioA_end_to_end :
    (parseFlight scenarioA).numericPrice = some (123456 / 100 : ℚ)
  ∧ (parseFlight scenarioA).totalMinutes = 465
  ∧ (parseFlight scenarioA).layoverMinutes = [150]
  ∧ isValidFlight ⟨2, 1800, 300⟩ (parseFlight scenarioA) = true := by
  refine ⟨?_, by decide, by decide, by decide⟩
  have h : (parseFlight scenarioA).numericPrice =
      some (floatVal ['1', '2', '3', '4'] ['5', '6']) := rfl
  rw [h]
  congr 1
  have d1 : digitsVal ['1', '2', '3', '4'] = 1234 := by decide
  have d2 : digitsVal ['5', '6'] = 56 := by decide
  simp only [floatVal, d1, d2, List.length_cons, List.length_nil]
  norm_num

/-- The inner `forEach` over one unit's raw flights appends exactly the
parsed-and-admitted flights, tagged with the unit's tag, in arrival order. -/
theorem pushFlight_foldl (c : Constraints) (tag : String) :
    ∀ (raws : List RawFlight) (acc : List TaggedFlight),
      raws.foldl (pushFlight c tag) acc =
        acc ++ ((raws.map parseFlight).filter (fun p => isValidFlight c p)).map
          (fun p => TaggedFlight.mk p tag) := by
  intro raws
  induction raws with
  | nil => intro acc; simp
  | cons f raws ih =>
    intro acc
    rw [List.foldl_cons]
    by_cases hv : isValidFlight c (parseFlight f) = true
    · rw [show pushFlight c tag acc f = acc ++ [⟨parseFlight f, tag⟩] from by
        simp [pushFlight, hv]]
      rw [ih]
      simp [hv]
    · rw [show pushFlight c tag acc f = acc from by simp [pushFlight, hv]]
      rw [ih]
      simp [hv]

/-- Claim C6: the accumulation is exactly the concatenation, in query-unit
order, of each unit's admitted offers in per-unit arrival order, each tagged
with its own unit's date; consequently every accumulated offer traces back to
one unit it was collected under, carrying that unit's tag. -/
theorem aggregate_tags_order (c : Constraints) (units : List (String × List RawFlight)) :
    aggregate c units =
      (units.map (fun u =>
        ((u.2.map parseFlight).filter (fun p => isValidFlight c p)).map
          (fun p => TaggedFlight.mk p u.1))).flatten
  ∧ ∀ o ∈ aggregate c units, ∃ u ∈ units, o.departureDate = u.1 ∧
      ∃ f ∈ u.2, o.flight = parseFlight f ∧ isValidFlight c (parseFlight f) = true := by
  have hmain : ∀ (us : List (String × List RawFlight)) (acc : List TaggedFlight),
      us.foldl (fun acc u => u.2.foldl (pushFlight c u.1) acc) acc =
        acc ++ (us.map (fun u =>
          ((u.2.map parseFlight).filter (fun p => isValidFlight c p)).map
            (fun p => TaggedFlight.mk p u.1))).flatten := by
    intro us
    induction us with
    | nil => intro acc; simp
    | cons u us ih =>
      intro acc
      rw [List.foldl_cons, pushFlight_foldl c u.1 u.2 acc, ih]
      simp
  have h1 : aggregate c units =
      (units.map (fun u =>
        ((u.2.map parseFlight).filter (fun p => isValidFlight c p)).map
          (fun p => TaggedFlight.mk p u.1))).flatten := by
    rw [aggregate, hmain]
    exact List.nil_append _
  refine ⟨h1, ?_⟩
  intro o ho
  rw [h1] at ho
  simp only [List.mem_flatten, List.mem_map] at ho
  obtain ⟨L, ⟨u, hu, rfl⟩, hoL⟩ := ho
  simp only [List.mem_map, List.mem_filter] at hoL
  obtain ⟨p, ⟨⟨f, hf, rfl⟩, hpvalid⟩, rfl⟩ := hoL
  exact ⟨u, hu, rfl, f, hf, rfl, hpvalid⟩

/-- A two-unit run for the C6 witness, one raw flight per unit. -/
def unitsExample : List (String × List RawFlight) :=
  [("2024-09-27", [⟨"A1", "$500", "10h", 0, none⟩]),
    ("2024-09-28", [⟨"A2", "$300", "11h", 0, none⟩])]

/-- Witness for C6 on a concrete two-unit run. -/
theorem aggregate_tags_order_witness :
    aggregate ⟨2, 1800, 300⟩ unitsExample =
      (unitsExample.map (fun u =>
        ((u.2.map parseFlight).filter (fun p => isValidFlight ⟨2, 1800, 300⟩ p)).map
          (fun p => TaggedFlight.mk p u.1))).flatten :=
  (aggregate_tags_order ⟨2, 1800, 300⟩ unitsExample).1

/-- Inserting into a list moves past only strictly cheaper offers, so the
equal-price subsequence at any price gains the new offer at its front and is
otherwise untouched. -/
theorem filter_orderedInsert (p : ℚ) (a : TaggedFlight) :
    ∀ l : List TaggedFlight,
      (l.orderedInsert priceLE a).filter (fun o => decide (priceQ o = p)) =
        if priceQ a = p then a :: l.filter (fun o => decide (priceQ o = p))
        else l.filter (fun o => decide (priceQ o = p)) := by
  intro l
  induction l with
  | nil =>
    by_cases hap : priceQ a = p
    · simp [List.orderedInsert, hap]
    · simp [List.orderedInsert, hap]
  | cons b l ih =>
    rw [List.orderedInsert]
    by_cases hab : priceLE a b
    · rw [if_pos hab]
      by_cases hap : priceQ a = p
      · simp [List.filter_cons, hap]
      · simp [List.filter_cons, hap]
    · rw [if_neg hab]
      have hab' : ¬ (priceQ a ≤ priceQ b) := hab
      have hbp : priceQ b < priceQ a := lt_of_not_le hab'
      by_cases hap : priceQ a = p
      · have hbne : ¬ (priceQ b = p) := by
          rw [← hap]
          exact ne_of_lt hbp
        simp [List.filter_cons, ih, hap, hbne]
      · simp [List.filter_cons, ih, hap]

/-- Sorting does not disturb the subsequence of offers at any given price. -/
theorem filter_insertionSort (p : ℚ) :
    ∀ l : List TaggedFlight,
      (l.insertionSort priceLE).filter (fun o => decide (priceQ o = p)) =
        l.filter (fun o => decide (priceQ o = p)) := by
  intro l
  induction l with
  | nil => rfl
  | cons a l ih =>
    rw [List.insertionSort, filter_orderedInsert, ih, List.filter_cons]
    by_cases hap : priceQ a = p
    · simp [hap]
    · simp [hap]

/-- Claim C5: `rank` permutes its input into a sequence ascending by numeric
price, and it is stable: at every price the offers appear in exactly their
input order (stated for offer lists whose prices are all actual numbers, the
only case in which the source comparator's behavior is specified). -/
theorem rank_sorted_stable (l : List TaggedFlight)
    (_hv : ∀ o ∈ l, o.flight.numericPrice.isSome = true) :
    List.Perm (rank l) l ∧ List.Sorted priceLE (rank l) ∧
      ∀ p : ℚ, (rank l).filter (fun o => decide (priceQ o = p)) =
        l.filter (fun o => decide (priceQ o = p)) :=
  ⟨List.perm_insertionSort priceLE l, List.sorted_insertionSort priceLE l,
    fun p => filter_insertionSort p l⟩

/-- Three offers for the C5 witness, two of them at the same price in a
fixed arrival order. -/
def stableExample : List TaggedFlight :=
  [⟨⟨"A1", "$5", "1h", 0, none, some 5, 60, []⟩, "d1"⟩,
    ⟨⟨"A2", "$3", "2h", 0, none, some 3, 120, []⟩, "d2"⟩,
    ⟨⟨"A3", "$3", "3h", 0, none, some 3, 180, []⟩, "d3"⟩]

/-- Witness for C5: the two price-3 offers keep their relative input order. -/
theorem rank_sorted_stable_witness :
    (rank stableExample).filter (fun o => decide (priceQ o = 3)) =
      stableExample.filter (fun o => decide (priceQ o = 3)) :=
  (rank_sorted_stable stableExample (by decide)).2.2 3

/-- Claim C9: `rank` is idempotent — ranking an already-ranked sequence
returns it unchanged (stated, like C5, for offer lists whose prices are all
actual numbers). -/
theorem rank_idempotent (l : List TaggedFlight)
    (_hv : ∀ o ∈ l, o.flight.numericPrice.isSome = true) :
    rank (rank l) = rank l :=
  List.Sorted.insertionSort_eq (List.sorted_insertionSort priceLE l)

/-- Two offers for the C9 witness, out of price order on arrival. -/
def idemExample : List TaggedFlight :=
  [⟨⟨"B1", "$9", "4h", 1, none, some 9, 240, [30]⟩, "e1"⟩,
    ⟨⟨"B2", "$2", "5h", 0, none, some 2, 300, []⟩, "e2"⟩]

/-- Witness for C9 on a concrete two-offer list. -/
theorem rank_idempotent_witness : rank (rank idemExample) = rank idemExample :=
  rank_idempotent idemExample (by decide)

end FlightSearch
